import Mathlib

/-!
Verification of the bottleneck-distance binding adapter
(`gtda/externals/bindings/bottleneck_bindings.cpp`) of giotto-learn.

The adapter is the C++ function

  double bottleneck_distance(std::vector<std::pair<double, double>>& dgm1,
                             std::vector<std::pair<double, double>>& dgm2,
                             double delta) {
    if (delta == 0.0)
      return hera::bottleneckDistExact(dgm1, dgm2);
    else
      return hera::bottleneckDistApprox(dgm1, dgm2, delta);
    return -1;
  }

exposed through pybind11 with parameters `dgm1`, `dgm2` and `delta`
defaulting to `0.01`.

Embedding choices:
* A persistence-diagram point is a pair of finite real numbers; finite
  IEEE doubles are (dyadic) rationals, so points are modelled as pairs
  of rationals and diagrams as lists of such pairs, preserving order
  and multiplicity of `std::vector<std::pair<double, double>>`.
* The tolerance `delta` is compared with `0.0` by an IEEE `==` test, so
  the branch behaviour depends on the full double semantics (NaN never
  compares equal, `-0.0` compares equal to `0.0`).  The tolerance is
  therefore modelled by the type `D` below, which keeps NaN, the two
  infinities and the negative zero as distinct values and carries the
  finite values as rationals; `D.beq` is IEEE `==` on these values.
* The two `hera::` entry points live in an external library that is
  only linked against, so the adapter is embedded relative to an
  arbitrary pair of entry points (`Hera`), and the branch itself is made
  observable as the call descriptor `bottleneck_distance_call`.  The
  trailing `return -1` is kept: the if/else is a statement that either
  executes a `return` (the `some` case of the descriptor) or falls
  through (`none`), in which case the sentinel `-1` would be returned.
* The mathematical content of `hera::bottleneckDistExact` is modelled
  from the spec (see `bottleneckDist` below).
-/

namespace GtdaBottleneck

/-- A point of a persistence diagram: a (birth, death) pair of finite
real numbers, modelled as rationals (every finite IEEE double is a
rational). -/
abbrev Pt : Type := ℚ × ℚ

/-- A persistence diagram as marshalled by the binding: an ordered
sequence of (birth, death) points, `std::vector<std::pair<double, double>>`. -/
abbrev Diagram : Type := List Pt

/-- Model of an IEEE double precision value as far as the adapter
inspects it: NaN, the two infinities, the negative zero, and finite
values carried as rationals (`fin 0` is the literal `0.0`, i.e. +0.0). -/
inductive D : Type
  | nan : D
  | posInf : D
  | negInf : D
  | negZero : D
  | fin : ℚ → D
deriving DecidableEq

/-- IEEE `==` on the double model: NaN compares equal to nothing
(itself included), `-0.0` compares equal to `0.0`, and finite values
compare by value. -/
def D.beq : D → D → Bool
  | .nan, _ => false
  | _, .nan => false
  | .posInf, .posInf => true
  | .negInf, .negInf => true
  | .negZero, .negZero => true
  | .negZero, .fin q => q == 0
  | .fin q, .negZero => q == 0
  | .fin q, .fin r => q == r
  | _, _ => false

/-- The value of the double literal `0.0` appearing in the branch test. -/
def dzero : D := D.fin 0

/-- The external library surface the adapter links against: the two
`hera::` entry points.  They are external collaborators, so the adapter
is verified relative to an arbitrary choice of them. -/
structure Hera : Type where
  bottleneckDistExact : Diagram → Diagram → D
  bottleneckDistApprox : Diagram → Diagram → D → D

/-- Descriptor of the delegate call the adapter performs: which entry
point is invoked and with which arguments. -/
inductive HeraCall : Type
  | exact : Diagram → Diagram → HeraCall
  | approx : Diagram → Diagram → D → HeraCall
deriving DecidableEq

/-- Perform a described delegate call against a given library. -/
def interpretCall (h : Hera) : HeraCall → D
  | .exact d1 d2 => h.bottleneckDistExact d1 d2
  | .approx d1 d2 delta => h.bottleneckDistApprox d1 d2 delta

/-- The if/else statement of `bottleneck_distance`, as the delegate
call through which it returns: `some c` means one of the two branches
executed `return` with call `c`; `none` would mean the statement fell
through to the code after it. -/
def bottleneck_distance_call (dgm1 dgm2 : Diagram) (delta : D) :
    Option HeraCall :=
  if D.beq delta dzero then some (HeraCall.exact dgm1 dgm2)
  else some (HeraCall.approx dgm1 dgm2 delta)

/-- The body of `bottleneck_distance`: run the if/else; if it returned,
that is the result, otherwise execute the trailing `return -1`. -/
def bottleneck_distance (h : Hera) (dgm1 dgm2 : Diagram) (delta : D) : D :=
  match bottleneck_distance_call dgm1 dgm2 delta with
  | some c => interpretCall h c
  | none => D.fin (-1)

/-- The default bound by pybind11 to the `delta` parameter:
`py::arg("delta") = 0.01`. -/
def bottleneck_distance_default : D := D.fin (1 / 100)

/-- The module-level callable `gtda_bottleneck.bottleneck_distance`:
an omitted `delta` argument (`none`) is replaced by the bound default
before the C++ function runs. -/
def bottleneck_distance_module_call (h : Hera) (dgm1 dgm2 : Diagram)
    (delta : Option D) : D :=
  bottleneck_distance h dgm1 dgm2 (delta.getD bottleneck_distance_default)

/-! ### Marshalling state model

The C++ function receives its diagrams as non-const lvalue references,
so nothing in its signature prevents the delegates from rewriting the
vectors.  `HeraM` therefore lets each entry point return updated
vectors alongside the distance.  pybind11's stl casters, however,
convert a Python sequence into a fresh `std::vector` (a copy); the
references bind to those temporaries and the copies are discarded after
the call, so the caller's objects are never written back. -/

/-- The external entry points with their potential writes through the
non-const references made explicit: each returns the distance together
with the (possibly rewritten) contents of the two vectors. -/
structure HeraM : Type where
  exactM : Diagram → Diagram → D × Diagram × Diagram
  approxM : Diagram → Diagram → D → D × Diagram × Diagram

/-- The body of `bottleneck_distance` when the delegates may write
through the references: the call's result and the final contents of the
two vectors. -/
def bottleneck_distance_refs (h : HeraM) (dgm1 dgm2 : Diagram)
    (delta : D) : D × Diagram × Diagram :=
  if D.beq delta dzero then h.exactM dgm1 dgm2
  else h.approxM dgm1 dgm2 delta

/-- The caller's two diagram objects, as they exist on the Python side
before and after a call. -/
structure PyState : Type where
  dgm1 : Diagram
  dgm2 : Diagram

/-- A full call through the module surface: pybind11 copies each Python
sequence into a fresh `std::vector` (`v1`, `v2`), the C++ body runs on
those copies (possibly rewriting them), the scalar is returned, and the
temporaries are discarded; the caller's state is whatever it was. -/
def bottleneck_distance_pycall (h : HeraM) (st : PyState)
    (delta : Option D) : D × PyState :=
  let v1 := st.dgm1
  let v2 := st.dgm2
  let r := bottleneck_distance_refs h v1 v2
    (delta.getD bottleneck_distance_default)
  (r.1, st)

/-! ### Spec model of the exact bottleneck distance

The algorithm itself lives in the external hera library, which is only
linked against.  Its mathematical content is modelled from the spec. -/

/-- Modelled from the spec: the cost of matching a diagram point to the
diagonal, the l-infinity distance from (birth, death) to the line
birth = death, i.e. half the point's persistence (the spec's scenario:
a point (0.0, 1.0) against the empty diagram costs 0.5). -/
def diagDist (p : Pt) : ℚ := |p.2 - p.1| / 2

/-- Modelled from the spec: the cost of matching a point of one diagram
to a point of the other, their l-infinity distance. -/
def pointDist (p q : Pt) : ℚ := max |p.1 - q.1| |p.2 - q.2|

/-- Modelled from the spec: the cost of sending every point of a list
to the diagonal (the maximum of the individual costs, 0 for no points). -/
def allToDiag (ys : Diagram) : ℚ :=
  ys.foldr (fun p acc => max (diagDist p) acc) 0

/-- Each way of removing one element from a list: the element together
with the remaining list. -/
def removals {α : Type} : List α → List (α × List α)
  | [] => []
  | y :: ys => (y, ys) :: (removals ys).map (fun p => (p.1, y :: p.2))

/-- Modelled from the spec: the bottleneck distance between two
persistence diagrams, the minimax matching distance — the minimum over
partial matchings of points of `A` with points of `B` (unmatched points
going to the diagonal) of the largest matching cost.  Computed by
minimising, for each point of `A`, over sending it to the diagonal or
matching it with each point still available in `B`; this is the
spec model of `hera::bottleneckDistExact`. -/
def bottleneckDist : Diagram → Diagram → ℚ
  | [], ys => allToDiag ys
  | x :: xs, ys =>
      (removals ys).foldr
        (fun p acc => min (max (pointDist x p.1) (bottleneckDist xs p.2)) acc)
        (max (diagDist x) (bottleneckDist xs ys))

/-- Modelled from the spec: the hera library as linked by the adapter.
`bottleneckDistExact` is the bottleneck distance above; the approximate
entry point must return a value within the stated approximation bound
of the exact distance, and is modelled as that exact value (a member of
every such bound). -/
def heraModel : Hera where
  bottleneckDistExact := fun d1 d2 => D.fin (bottleneckDist d1 d2)
  bottleneckDistApprox := fun d1 d2 _ => D.fin (bottleneckDist d1 d2)

/-! ### Matchings and their costs

`MatchVal A B c` holds when some partial matching of `A` with `B`
(leftover points going to the diagonal) has largest cost `c`.
`bottleneckDist A B` is shown to be the least such `c`, which yields
the algebraic facts delegated to the exact entry point: symmetry and
zero self-distance. -/

/-- A partial matching of the two diagrams achieving value `c`: each
point of the first list is either sent to the diagonal or matched with
a point removed from the second list, leftovers of the second list go
to the diagonal, and `c` is the maximum cost incurred. -/
inductive MatchVal : Diagram → Diagram → ℚ → Prop
  | nil (ys : Diagram) : MatchVal [] ys (allToDiag ys)
  | diag (x : Pt) (xs ys : Diagram) (c : ℚ) (h : MatchVal xs ys c) :
      MatchVal (x :: xs) ys (max (diagDist x) c)
  | pick (x : Pt) (xs l : Diagram) (y : Pt) (r : Diagram) (c : ℚ)
      (h : MatchVal xs (l ++ r) c) :
      MatchVal (x :: xs) (l ++ y :: r) (max (pointDist x y) c)

theorem allToDiag_nonneg (ys : Diagram) : 0 ≤ allToDiag ys := by
  induction ys with
  | nil => exact le_refl 0
  | cons y ys ih => exact le_trans ih (le_max_right _ _)

theorem matchVal_nonneg {A B : Diagram} {c : ℚ} (h : MatchVal A B c) :
    0 ≤ c := by
  induction h with
  | nil ys => exact allToDiag_nonneg ys
  | diag x xs ys c _ ih => exact le_trans ih (le_max_right _ _)
  | pick x xs l y r c _ ih => exact le_trans ih (le_max_right _ _)

theorem removals_sound {α : Type} (ys : List α) (p : α × List α)
    (hp : p ∈ removals ys) : ∃ l r, ys = l ++ p.1 :: r ∧ p.2 = l ++ r := by
  induction ys generalizing p with
  | nil => simp [removals] at hp
  | cons y ys ih =>
      simp only [removals, List.mem_cons, List.mem_map] at hp
      rcases hp with h | ⟨q, hq, rfl⟩
      · exact ⟨[], ys, by simp [h]⟩
      · rcases ih q hq with ⟨l, r, h1, h2⟩
        exact ⟨y :: l, r, by simp [h1], by simp [h2]⟩

theorem removals_complete {α : Type} (l : List α) (y : α) (r : List α) :
    (y, l ++ r) ∈ removals (l ++ y :: r) := by
  induction l with
  | nil => simp [removals]
  | cons a l ih =>
      simp only [List.cons_append, removals, List.mem_cons, List.mem_map]
      exact Or.inr ⟨(y, l ++ r), ih, rfl⟩

theorem foldr_min_le_base {α : Type} (g : α → ℚ) (b : ℚ) (l : List α) :
    l.foldr (fun p acc => min (g p) acc) b ≤ b := by
  induction l with
  | nil => exact le_refl b
  | cons a l ih => exact le_trans (min_le_right _ _) ih

theorem foldr_min_le_mem {α : Type} (g : α → ℚ) (b : ℚ) (l : List α)
    (p : α) (hp : p ∈ l) :
    l.foldr (fun q acc => min (g q) acc) b ≤ g p := by
  induction l with
  | nil => simp at hp
  | cons a l ih =>
      rcases List.mem_cons.mp hp with rfl | hp
      · exact min_le_left _ _
      · exact le_trans (min_le_right _ _) (ih hp)

theorem foldr_min_cases {α : Type} (g : α → ℚ) (b : ℚ) (l : List α) :
    l.foldr (fun p acc => min (g p) acc) b = b ∨
      ∃ p ∈ l, l.foldr (fun p acc => min (g p) acc) b = g p := by
  induction l with
  | nil => exact Or.inl rfl
  | cons a l ih =>
      rcases le_total (g a) (l.foldr (fun p acc => min (g p) acc) b) with h | h
      · refine Or.inr ⟨a, List.mem_cons_self a l, ?_⟩
        simpa [List.foldr_cons] using min_eq_left h
      · have heq : (a :: l).foldr (fun p acc => min (g p) acc) b
            = l.foldr (fun p acc => min (g p) acc) b := by
          simpa [List.foldr_cons] using min_eq_right h
        rcases ih with h0 | ⟨p, hp, hpeq⟩
        · exact Or.inl (heq.trans h0)
        · exact Or.inr ⟨p, List.mem_cons_of_mem a hp, heq.trans hpeq⟩

/-- The value computed by `bottleneckDist` is achieved by some matching. -/
theorem bottleneckDist_matchVal (A B : Diagram) :
    MatchVal A B (bottleneckDist A B) := by
  induction A generalizing B with
  | nil => exact MatchVal.nil B
  | cons x xs ih =>
      rcases foldr_min_cases
          (fun p => max (pointDist x p.1) (bottleneckDist xs p.2))
          (max (diagDist x) (bottleneckDist xs B)) (removals B) with h | ⟨p, hp, h⟩
      · rw [bottleneckDist, h]
        exact MatchVal.diag x xs B _ (ih B)
      · rcases removals_sound B p hp with ⟨l, r, hB, hrest⟩
        rw [bottleneckDist, h, hB]
        have := MatchVal.pick x xs l p.1 r _ (hrest ▸ ih p.2)
        simpa [hrest] using this

/-- `bottleneckDist` is a lower bound on the value of every matching. -/
theorem bottleneckDist_le_matchVal {A B : Diagram} {c : ℚ}
    (h : MatchVal A B c) : bottleneckDist A B ≤ c := by
  induction h with
  | nil ys => exact le_of_eq rfl
  | diag x xs ys c _ ih =>
      refine le_trans (foldr_min_le_base _ _ _) ?_
      exact max_le_max_left _ ih
  | pick x xs l y r c _ ih =>
      refine le_trans (foldr_min_le_mem
        (fun p => max (pointDist x p.1) (bottleneckDist xs p.2)) _ _
        (y, l ++ r) (removals_complete l y r)) ?_
      exact max_le_max_left _ ih

theorem pointDist_comm (p q : Pt) : pointDist p q = pointDist q p := by
  unfold pointDist
  rw [abs_sub_comm p.1 q.1, abs_sub_comm p.2 q.2]

/-- Sending the whole first list to the diagonal is a matching against
the empty second list. -/
theorem matchVal_left_diag (ys : Diagram) : MatchVal ys [] (allToDiag ys) := by
  induction ys with
  | nil => exact MatchVal.nil []
  | cons y ys ih => exact MatchVal.diag y ys [] _ ih

/-- A point added to the second list may be sent to the diagonal. -/
theorem matchVal_cons_right_diag {A B : Diagram} {c : ℚ} (y : Pt)
    (h : MatchVal A B c) : MatchVal A (y :: B) (max (diagDist y) c) := by
  induction h with
  | nil ys => exact MatchVal.nil (y :: ys)
  | diag x xs ys c _ ih =>
      have := MatchVal.diag x xs (y :: ys) _ ih
      rwa [max_left_comm] at this
  | pick x xs l z r c _ ih =>
      have := MatchVal.pick x xs (y :: l) z r _ ih
      rw [max_left_comm] at this
      exact this

/-- A point inserted anywhere into the first list may be matched with a
point pushed onto the front of the second list. -/
theorem matchVal_insert_left {A B : Diagram} {c : ℚ} (h : MatchVal A B c) :
    ∀ l r : Diagram, A = l ++ r → ∀ y x : Pt,
      MatchVal (l ++ y :: r) (x :: B) (max (pointDist y x) c) := by
  induction h with
  | nil ys =>
      intro l r hA y x
      rcases List.append_eq_nil.mp hA.symm with ⟨rfl, rfl⟩
      exact MatchVal.pick y [] [] x ys _ (MatchVal.nil ys)
  | diag a xs ys c hsub ih =>
      intro l r hA y x
      cases l with
      | nil =>
          simp only [List.nil_append] at hA ⊢
          subst hA
          exact MatchVal.pick y (a :: xs) [] x ys _ (MatchVal.diag a xs ys c hsub)
      | cons a' l' =>
          rcases List.cons_eq_cons.mp hA with ⟨rfl, hxs⟩
          have := MatchVal.diag a (l' ++ y :: r) (x :: ys) _ (ih l' r hxs y x)
          rw [max_left_comm] at this
          simpa using this
  | pick a xs lb b rb c hsub ih =>
      intro l r hA y x
      cases l with
      | nil =>
          simp only [List.nil_append] at hA ⊢
          subst hA
          exact MatchVal.pick y (a :: xs) [] x (lb ++ b :: rb) _
            (MatchVal.pick a xs lb b rb c hsub)
      | cons a' l' =>
          rcases List.cons_eq_cons.mp hA with ⟨rfl, hxs⟩
          have step := MatchVal.pick a (l' ++ y :: r) (x :: lb) b rb _
            (ih l' r hxs y x)
          rw [max_left_comm] at step
          simpa using step

/-- Transposing a matching: a matching of `A` with `B` of value `c`
gives one of `B` with `A` of the same value. -/
theorem matchVal_swap {A B : Diagram} {c : ℚ} (h : MatchVal A B c) :
    MatchVal B A c := by
  induction h with
  | nil ys => exact matchVal_left_diag ys
  | diag x xs ys c _ ih => exact matchVal_cons_right_diag x ih
  | pick x xs l y r c _ ih =>
      have := matchVal_insert_left ih l r rfl y x
      rwa [pointDist_comm y x] at this

/-- The identity matching of a diagram with itself has value `0`. -/
theorem matchVal_self_zero (A : Diagram) : MatchVal A A 0 := by
  induction A with
  | nil =>
      have := MatchVal.nil []
      simpa [allToDiag] using this
  | cons x xs ih =>
      have := MatchVal.pick x xs [] x xs 0 ih
      simpa [pointDist] using this

theorem bottleneckDist_nonneg (A B : Diagram) : 0 ≤ bottleneckDist A B :=
  matchVal_nonneg (bottleneckDist_matchVal A B)

theorem bottleneckDist_comm (A B : Diagram) :
    bottleneckDist A B = bottleneckDist B A :=
  le_antisymm
    (bottleneckDist_le_matchVal (matchVal_swap (bottleneckDist_matchVal B A)))
    (bottleneckDist_le_matchVal (matchVal_swap (bottleneckDist_matchVal A B)))

theorem bottleneckDist_self (A : Diagram) : bottleneckDist A A = 0 :=
  le_antisymm (bottleneckDist_le_matchVal (matchVal_self_zero A))
    (bottleneckDist_nonneg A A)

/-! ### Auxiliary facts about the binding -/

/-- Finite and non-negative as a property of a double value: negative
zero and finite values at least `0` qualify; NaN and the infinities do
not. -/
def D.finiteNonneg : D → Prop
  | .negZero => True
  | .fin q => 0 ≤ q
  | _ => False

/-- Against the spec model of hera, the adapter returns the modelled
bottleneck distance whichever branch is taken. -/
theorem bottleneck_distance_heraModel (A B : Diagram) (delta : D) :
    bottleneck_distance heraModel A B delta = D.fin (bottleneckDist A B) := by
  cases hb : D.beq delta dzero <;>
    simp [bottleneck_distance, bottleneck_distance_call, hb, interpretCall,
      heraModel]

/-! ### The claims -/

/-- C1: the adapter invokes the exact entry point exactly when `delta`
compares `==` to `0.0`; for every other `delta` it invokes the
approximate entry point with `delta` forwarded unchanged, and in
particular `delta = 1e-12` (a nonzero value) takes the approximate
path. -/
theorem branch_exact_iff_delta_zero (dgm1 dgm2 : Diagram) (delta : D) :
    (bottleneck_distance_call dgm1 dgm2 delta
        = some (HeraCall.exact dgm1 dgm2) ↔ D.beq delta dzero = true) ∧
    (D.beq delta dzero = false →
      bottleneck_distance_call dgm1 dgm2 delta
        = some (HeraCall.approx dgm1 dgm2 delta)) ∧
    bottleneck_distance_call dgm1 dgm2 (D.fin (1 / 1000000000000))
      = some (HeraCall.approx dgm1 dgm2 (D.fin (1 / 1000000000000))) := by
  have h12 : D.beq (D.fin (1 / 1000000000000)) dzero = false := by
    norm_num [D.beq, dzero]
  refine ⟨⟨fun h => ?_, fun h => by simp [bottleneck_distance_call, h]⟩,
    fun h => by simp [bottleneck_distance_call, h],
    by simp only [bottleneck_distance_call, h12, Bool.false_eq_true,
      if_false]⟩
  cases hb : D.beq delta dzero with
  | true => rfl
  | false => simp [bottleneck_distance_call, hb] at h

/-- C2: the trailing `return -1` is dead code: for every input,
including NaN tolerance, the if/else executes a `return` through
exactly one delegate call `c`, and the function's result is the value
of that call, never the sentinel. -/
theorem body_returns_via_delegate (h : Hera) (dgm1 dgm2 : Diagram)
    (delta : D) :
    ∃ c : HeraCall, bottleneck_distance_call dgm1 dgm2 delta = some c ∧
      bottleneck_distance h dgm1 dgm2 delta = interpretCall h c := by
  cases hb : D.beq delta dzero with
  | true =>
      exact ⟨HeraCall.exact dgm1 dgm2,
        by simp [bottleneck_distance_call, hb],
        by simp [bottleneck_distance, bottleneck_distance_call, hb]⟩
  | false =>
      exact ⟨HeraCall.approx dgm1 dgm2 delta,
        by simp [bottleneck_distance_call, hb],
        by simp [bottleneck_distance, bottleneck_distance_call, hb]⟩

/-- C3: omitting the `delta` argument at the module surface behaves
identically to passing `0.01` explicitly, for every library and every
pair of diagrams; the call with the default takes the approximate path
with tolerance `0.01`. -/
theorem omitted_delta_is_default (h : Hera) (dgm1 dgm2 : Diagram) :
    bottleneck_distance_module_call h dgm1 dgm2 none
        = bottleneck_distance_module_call h dgm1 dgm2 (some (D.fin (1 / 100))) ∧
    bottleneck_distance_module_call h dgm1 dgm2 none
        = bottleneck_distance h dgm1 dgm2 (D.fin (1 / 100)) ∧
    bottleneck_distance_call dgm1 dgm2 (D.fin (1 / 100))
        = some (HeraCall.approx dgm1 dgm2 (D.fin (1 / 100))) := by
  have hd : D.beq (D.fin (1 / 100)) dzero = false := by
    norm_num [D.beq, dzero]
  exact ⟨rfl, rfl, by simp only [bottleneck_distance_call, hd,
    Bool.false_eq_true, if_false]⟩

/-- C4: whenever both delegates honour the external library's contract
of returning finite non-negative values, every value the adapter
returns is finite and non-negative, and in particular is never the
sentinel `-1.0`. -/
theorem adapter_result_finite_nonneg (h : Hera) (dgm1 dgm2 : Diagram)
    (delta : D)
    (hex : ∀ a b : Diagram, D.finiteNonneg (h.bottleneckDistExact a b))
    (hap : ∀ (a b : Diagram) (t : D),
      D.finiteNonneg (h.bottleneckDistApprox a b t)) :
    D.finiteNonneg (bottleneck_distance h dgm1 dgm2 delta) ∧
      bottleneck_distance h dgm1 dgm2 delta ≠ D.fin (-1) := by
  have hfn : D.finiteNonneg (bottleneck_distance h dgm1 dgm2 delta) := by
    cases hb : D.beq delta dzero with
    | true =>
        simpa [bottleneck_distance, bottleneck_distance_call, hb,
          interpretCall] using hex dgm1 dgm2
    | false =>
        simpa [bottleneck_distance, bottleneck_distance_call, hb,
          interpretCall] using hap dgm1 dgm2 delta
  refine ⟨hfn, fun hcontra => ?_⟩
  rw [hcontra] at hfn
  norm_num [D.finiteNonneg] at hfn

/-- Witness for C4: the spec model of hera satisfies the contract, and
the exact-path call on a one-point diagram against the empty diagram
returns a finite non-negative value other than `-1.0`. -/
theorem adapter_result_finite_nonneg_witness :
    D.finiteNonneg (bottleneck_distance heraModel [(0, 1)] [] dzero) ∧
      bottleneck_distance heraModel [(0, 1)] [] dzero ≠ D.fin (-1) :=
  adapter_result_finite_nonneg heraModel [(0, 1)] [] dzero
    (fun a b => by
      simpa [heraModel, D.finiteNonneg] using bottleneckDist_nonneg a b)
    (fun a b _ => by
      simpa [heraModel, D.finiteNonneg] using bottleneckDist_nonneg a b)

/-- C5: a call through the module surface leaves the caller's two
diagrams unchanged — same elements, same order, same lengths — for
every library behaviour (even one rewriting the vectors through the
references), every caller state and every tolerance argument. -/
theorem call_does_not_mutate_inputs (h : HeraM) (st : PyState)
    (delta : Option D) :
    ((bottleneck_distance_pycall h st delta).2).dgm1 = st.dgm1 ∧
      ((bottleneck_distance_pycall h st delta).2).dgm2 = st.dgm2 ∧
      ((bottleneck_distance_pycall h st delta).2).dgm1.length
        = st.dgm1.length ∧
      ((bottleneck_distance_pycall h st delta).2).dgm2.length
        = st.dgm2.length :=
  ⟨rfl, rfl, rfl, rfl⟩

/-- C6: through the binding, the exact-path computation is symmetric in
the two diagrams: swapping `dgm1` and `dgm2` at tolerance `0.0` gives
the same result. -/
theorem exact_path_symmetric (A B : Diagram) :
    bottleneck_distance heraModel A B dzero
      = bottleneck_distance heraModel B A dzero := by
  rw [bottleneck_distance_heraModel, bottleneck_distance_heraModel,
    bottleneckDist_comm]

/-- C7: through the binding, the exact-path distance of any diagram to
itself is `0.0`. -/
theorem exact_path_self_zero (A : Diagram) :
    bottleneck_distance heraModel A A dzero = D.fin 0 := by
  rw [bottleneck_distance_heraModel, bottleneckDist_self]

/-- C8: with both diagrams empty, the binding returns `0.0` for every
tolerance value. -/
theorem empty_diagrams_distance_zero (delta : D) :
    bottleneck_distance heraModel [] [] delta = D.fin 0 := by
  rw [bottleneck_distance_heraModel]
  rfl

/-- C9: the tolerance `-0.0` compares `==` to `0.0`, so it selects the
exact entry point, exactly as the literal `+0.0` does. -/
theorem negative_zero_selects_exact (dgm1 dgm2 : Diagram) :
    bottleneck_distance_call dgm1 dgm2 D.negZero
        = some (HeraCall.exact dgm1 dgm2) ∧
      bottleneck_distance_call dgm1 dgm2 dzero
        = some (HeraCall.exact dgm1 dgm2) ∧
      D.beq D.negZero dzero = true := by
  have h1 : D.beq D.negZero dzero = true := by decide
  have h2 : D.beq dzero dzero = true := by decide
  exact ⟨by simp [bottleneck_distance_call, h1],
    by simp [bottleneck_distance_call, h2], h1⟩

/-- C10: the adapter validates nothing about the tolerance: every
`delta` that does not compare `==` to `0.0` — NaN and negative values
included — is forwarded unchanged to the approximate entry point, and
the adapter itself raises no error. -/
theorem nonzero_delta_forwarded (dgm1 dgm2 : Diagram) (delta : D)
    (hnz : D.beq delta dzero = false) :
    bottleneck_distance_call dgm1 dgm2 delta
      = some (HeraCall.approx dgm1 dgm2 delta) := by
  simp [bottleneck_distance_call, hnz]

/-- Witness for C10: NaN does not compare `==` to `0.0`, and the call
with NaN tolerance goes to the approximate entry point with NaN
forwarded. -/
theorem nonzero_delta_forwarded_witness :
    bottleneck_distance_call [] [] D.nan
      = some (HeraCall.approx [] [] D.nan) :=
  nonzero_delta_forwarded [] [] D.nan (by decide)

end GtdaBottleneck
